import Mathlib

/-!
# tinystl `buffer.h`: a shallow embedding

`include/TINYSTL/buffer.h` implements the storage block of a vector: three
pointers `first`, `last`, `capacity` into one allocation, with the slots of
`[first, last)` constructed.

Embedding:

* a `T*` is a natural number, counted in elements (`p + 1` is the next slot);
  the null pointer is `0`;
* the heap is one flat memory `mem : Nat → α`; next to it every slot carries a
  tracking bit `constructed` (set by placement new, cleared by a destructor
  call), and every placement new, destructor call and allocator call is
  appended to `trace`;
* a destructor call leaves the stored value where it is (the element type's
  destructor is not part of this header), so the value of a slot can still be
  read back after the call;
* `size_t` and pointers have `wordBits` bits; the slot `p` lies at the byte
  address `p * sizeof(T)`.  The product `newsize * 3` of `buffer_insert` and the
  cast `(size_t)((char*)first - (char*)last)` of `buffer_destroy` are reduced
  modulo `2 ^ wordBits`, and so are the three computations of `buffer_reserve` on
  the requested capacity: the pointer sum `b->first + capacity` of its guard, the
  byte count `sizeof(T) * capacity`, and the pointer sum `newfirst + capacity`
  (a wrapped pointer is rounded down to a slot, which is exact when `sizeof(T)`
  divides `2 ^ wordBits`), and so is the pointer sum `b->first + size` of
  `buffer_resize`.  Sums of a pointer and a count of existing elements (the size
  of the buffer, the length of the source range) are exact;
* the source range `[first, last)` of `buffer_insert` is a range of `const T`
  outside the buffer; it is passed as the list of the values it holds;
* a loop `for (it = a; it != e; ++it)` is run `e - a` times, a loop
  `for (it = a; it < e; ++it)` likewise (zero times when `e ≤ a`).
-/

namespace tinystl

/-- One observable step of the buffer code. -/
inductive Event where
  | construct (p : Nat)
  | destruct (p : Nat)
  | allocate (bytes ptr : Nat)
  | deallocate (ptr bytes : Nat)
deriving DecidableEq, Repr

/-- The target: width of `size_t` in bits and `sizeof(T)`. -/
structure Machine where
  wordBits : Nat
  sizeofT : Nat
deriving DecidableEq, Repr

/-- The heap: slot values, the constructed bit of every slot, the first address
the allocator has not handed out, and the events so far (oldest first). -/
structure Heap (α : Type) where
  mem : Nat → α
  constructed : Nat → Bool
  brk : Nat
  trace : List Event

/-- The struct `buffer<T, Alloc>`. -/
structure buffer where
  first : Nat
  last : Nat
  capacity : Nat
deriving DecidableEq, Repr

/-- The expression `new(placeholder(), p) T(v)`. -/
def Heap.placement_new {α : Type} (h : Heap α) (p : Nat) (v : α) : Heap α :=
  { mem := fun a => if a = p then v else h.mem a
    constructed := fun a => if a = p then true else h.constructed a
    brk := h.brk
    trace := h.trace ++ [Event.construct p] }

/-- The expression `p->~T()`. -/
def Heap.destructor {α : Type} (h : Heap α) (p : Nat) : Heap α :=
  { mem := h.mem
    constructed := fun a => if a = p then false else h.constructed a
    brk := h.brk
    trace := h.trace ++ [Event.destruct p] }

/-- Modelled from the spec: `TINYSTL/allocator.h` is not part of the sources.
`allocate(byteSize)` returns raw memory of at least `byteSize` bytes: here the
block starts at `brk`, and `brk` moves up by the number of element slots that
cover `bytes` bytes. -/
def static_allocate {α : Type} (M : Machine) (h : Heap α) (bytes : Nat) : Nat × Heap α :=
  (h.brk,
   { mem := h.mem
     constructed := h.constructed
     brk := h.brk + (bytes + (M.sizeofT - 1)) / M.sizeofT
     trace := h.trace ++ [Event.allocate bytes h.brk] })

/-- Modelled from the spec: `TINYSTL/allocator.h` is not part of the sources.
`deallocate(pointer, byteSize)`: the call is recorded. -/
def static_deallocate {α : Type} (h : Heap α) (ptr bytes : Nat) : Heap α :=
  { mem := h.mem
    constructed := h.constructed
    brk := h.brk
    trace := h.trace ++ [Event.deallocate ptr bytes] }

/-- The cast `(size_t)z` of a signed value. -/
def size_t_cast (M : Machine) (z : Int) : Nat :=
  (z % (2 : Int) ^ M.wordBits).toNat

/-- The loop of `buffer_destroy_range`, `n` iterations from `first`. -/
def destroy_loop {α : Type} : Nat → Nat → Heap α → Heap α
  | 0, _, h => h
  | n + 1, first, h => destroy_loop n (first + 1) (h.destructor first)

/-- The function `buffer_destroy_range(first, last)`: `for (; first < last; ++first) first->~T();` -/
def buffer_destroy_range {α : Type} (h : Heap α) (first last : Nat) : Heap α :=
  destroy_loop (last - first) first h

/-- The function `buffer_init(b)`. -/
def buffer_init : buffer :=
  { first := 0, last := 0, capacity := 0 }

/-- The function `buffer_destroy(b)`. -/
def buffer_destroy {α : Type} (M : Machine) (h : Heap α) (b : buffer) : Heap α :=
  static_deallocate (buffer_destroy_range h b.first b.last) b.first
    (size_t_cast M ((b.first : Int) * M.sizeofT - (b.last : Int) * M.sizeofT))

/-- The loop `for (it, dest; it != end; ++it, ++dest) new(placeholder(), dest) T(*it);`
of `buffer_reserve` and of `buffer_erase`, `n` iterations. -/
def copy_loop {α : Type} : Nat → Nat → Nat → Heap α → Heap α
  | 0, _, _, h => h
  | n + 1, it, dest, h => copy_loop n (it + 1) (dest + 1) (h.placement_new dest (h.mem it))

/-- The byte address of the pointer sum `p + n` of a `T*` and a `size_t`, as the
machine computes it: `p * sizeof(T) + n * sizeof(T)` modulo `2 ^ wordBits`. -/
def ptr_add_bytes (M : Machine) (p n : Nat) : Nat :=
  (p * M.sizeofT + n * M.sizeofT) % 2 ^ M.wordBits

/-- The function `buffer_reserve(b, capacity)`. The guard compares the byte
address of `b->first + capacity` with that of `b->capacity`. -/
def buffer_reserve {α : Type} (M : Machine) (h : Heap α) (b : buffer) (capacity : Nat) :
    Heap α × buffer :=
  if ptr_add_bytes M b.first capacity ≤ b.capacity * M.sizeofT then (h, b)
  else
    let size := b.last - b.first
    let r := static_allocate M h ((M.sizeofT * capacity) % 2 ^ M.wordBits)
    let newfirst := r.1
    let h1 := copy_loop size b.first newfirst r.2
    let h2 := buffer_destroy M h1 b
    (h2, { first := newfirst, last := newfirst + size,
           capacity := ptr_add_bytes M newfirst capacity / M.sizeofT })

/-- The loop `for (it = b->last; it < end; ++it) new(placeholder(), it) T(value);`
of `buffer_resize`, `n` iterations. -/
def fill_loop {α : Type} : Nat → Nat → α → Heap α → Heap α
  | 0, _, _, h => h
  | n + 1, it, value, h => fill_loop n (it + 1) value (h.placement_new it value)

/-- The pointer `b->first + size` of `buffer_resize`, as a slot. For a buffer that
lies inside the address space (`capacityEnd` at a byte address below
`2 ^ wordBits`, as for every buffer of the machine) it is the machine's sum, which
can wrap; for a buffer outside the address space the sum is left exact. -/
def resize_end (M : Machine) (b : buffer) (size : Nat) : Nat :=
  if 0 < M.sizeofT ∧ b.capacity * M.sizeofT < 2 ^ M.wordBits
  then ptr_add_bytes M b.first size / M.sizeofT
  else b.first + size

/-- The function `buffer_resize(b, size, value)`. -/
def buffer_resize {α : Type} (M : Machine) (h : Heap α) (b : buffer) (size : Nat) (value : α) :
    Heap α × buffer :=
  let r := buffer_reserve M h b size
  let b1 := r.2
  let h1 := fill_loop (resize_end M b1 size - b1.last) b1.last value r.1
  let h2 := buffer_destroy_range h1 (resize_end M b1 size) b1.last
  (h2, { first := b1.first, last := resize_end M b1 size, capacity := b1.capacity })

/-- The function `buffer_clear(b)`. -/
def buffer_clear {α : Type} (h : Heap α) (b : buffer) : Heap α × buffer :=
  (buffer_destroy_range h b.first b.last,
   { first := b.first, last := b.first, capacity := b.capacity })

/-- The shift loop of `buffer_insert`, `n` iterations:
`new(placeholder(), dest - 1) T(*(it - 1)); buffer_destroy_range(it - 1, it);`
then `--it, --dest`. -/
def insert_shift {α : Type} : Nat → Nat → Nat → Heap α → Heap α
  | 0, _, _, h => h
  | n + 1, it, dest, h =>
    insert_shift n (it - 1) (dest - 1)
      (buffer_destroy_range (h.placement_new (dest - 1) (h.mem (it - 1))) (it - 1) it)

/-- The loop `for (; first != last; ++first, ++where) new(placeholder(), where) T(*first);`
of `buffer_insert` over the values of the source range. -/
def insert_copy {α : Type} : List α → Nat → Heap α → Heap α
  | [], _, h => h
  | v :: src, where_, h => insert_copy src (where_ + 1) (h.placement_new where_ v)

/-- The growth request `(newsize * 3) / 2` of `buffer_insert`, in `size_t`. -/
def grow_target (M : Machine) (newsize : Nat) : Nat :=
  (newsize * 3 % 2 ^ M.wordBits) / 2

/-- The function `buffer_insert(b, where, first, last)`, `src` being the values of `[first, last)`. -/
def buffer_insert {α : Type} (M : Machine) (h : Heap α) (b : buffer) (where_ : Nat)
    (src : List α) : Heap α × buffer :=
  let offset := where_ - b.first
  let newsize := (b.last - b.first) + src.length
  let r := if b.first + newsize > b.capacity then buffer_reserve M h b (grow_target M newsize)
           else (h, b)
  let b1 := r.2
  let where1 := b1.first + offset
  let h1 := insert_shift (b1.last - where1) b1.last (b1.last + src.length) r.1
  let h2 := insert_copy src where1 h1
  (h2, { first := b1.first, last := b1.first + newsize, capacity := b1.capacity })

/-- The function `buffer_erase(b, first, last)`; the third component is the returned pointer. -/
def buffer_erase {α : Type} (h : Heap α) (b : buffer) (first last : Nat) :
    Heap α × buffer × Nat :=
  let h1 := buffer_destroy_range h first last
  let h2 := copy_loop (b.last - last) last first h1
  (h2, { first := b.first, last := b.last - (last - first), capacity := b.capacity }, first)

/-- The function `buffer_swap(b, other)`: the heap is not touched. -/
def buffer_swap {α : Type} (h : Heap α) (b other : buffer) : Heap α × buffer × buffer :=
  (h, { first := other.first, last := other.last, capacity := other.capacity },
      { first := b.first, last := b.last, capacity := b.capacity })

/-! ## Observations -/

/-- The derived quantity `size = end - begin`. -/
def buffer.size (b : buffer) : Nat := b.last - b.first

/-- The derived quantity `capacity = capacityEnd - begin`. -/
def buffer.cap (b : buffer) : Nat := b.capacity - b.first

/-- The values held by the slots of `[begin, end)`, in index order. -/
def contents {α : Type} (h : Heap α) (b : buffer) : List α :=
  (List.range (b.last - b.first)).map (fun k => h.mem (b.first + k))

/-- Invariant 1 of the data model: `begin <= end <= capacityEnd`. -/
def ordered (b : buffer) : Prop := b.first ≤ b.last ∧ b.last ≤ b.capacity

instance (b : buffer) : Decidable (ordered b) :=
  inferInstanceAs (Decidable (b.first ≤ b.last ∧ b.last ≤ b.capacity))

/-- The buffer owns its allocation: it is ordered and its block lies below the
addresses the allocator can still hand out. -/
def owned {α : Type} (h : Heap α) (b : buffer) : Prop := ordered b ∧ b.capacity ≤ h.brk

instance {α : Type} (h : Heap α) (b : buffer) : Decidable (owned h b) :=
  inferInstanceAs (Decidable (ordered b ∧ b.capacity ≤ h.brk))

/-- A block of `n` elements at the slot `p` ends below the end of the address
space: elements take at least one byte and `(p + n) * sizeof(T) < 2 ^ wordBits`. -/
def addressable (M : Machine) (p n : Nat) : Prop :=
  0 < M.sizeofT ∧ (p + n) * M.sizeofT < 2 ^ M.wordBits

instance (M : Machine) (p n : Nat) : Decidable (addressable M p n) :=
  inferInstanceAs (Decidable (0 < M.sizeofT ∧ (p + n) * M.sizeofT < 2 ^ M.wordBits))

/-- The request `buffer_reserve(b, n)` can be addressed: `begin + n` does not wrap
and, where a new block is needed, neither does the end of the block of `n`
elements that the allocator returns. -/
def reservable {α : Type} (M : Machine) (h : Heap α) (b : buffer) (n : Nat) : Prop :=
  addressable M b.first n ∧ (b.capacity < b.first + n → addressable M h.brk n)

instance {α : Type} (M : Machine) (h : Heap α) (b : buffer) (n : Nat) :
    Decidable (reservable M h b n) :=
  inferInstanceAs
    (Decidable (addressable M b.first n ∧ (b.capacity < b.first + n → addressable M h.brk n)))

/-- An empty heap: nothing constructed, nothing traced, addresses from `1` on free. -/
def Heap.empty {α : Type} (d : α) : Heap α :=
  { mem := fun _ => d, constructed := fun _ => false, brk := 1, trace := [] }

/-! ## Sequences of calls on several buffers -/

/-- The heap together with the buffers of the program, numbered. -/
structure World (α : Type) where
  heap : Heap α
  bufs : Nat → buffer

/-- One call of the interface.  A buffer is named by its number; positions are
given as offsets from `begin` (`where = begin + i`, `first = begin + i`,
`last = begin + j`). -/
inductive Call (α : Type) where
  | reserve (b n : Nat)
  | resize (b n : Nat) (v : α)
  | clear (b : Nat)
  | insert (b i : Nat) (src : List α)
  | erase (b i j : Nat)
  | swap (a b : Nat)

/-- Every buffer freshly initialised by `buffer_init`. -/
def World.init {α : Type} (h : Heap α) : World α :=
  { heap := h, bufs := fun _ => buffer_init }

/-- Store the result of a call on buffer `k`. -/
def World.put {α : Type} (w : World α) (k : Nat) (r : Heap α × buffer) : World α :=
  { heap := r.1, bufs := fun j => if j = k then r.2 else w.bufs j }

/-- Perform one call. -/
def step {α : Type} (M : Machine) (w : World α) : Call α → World α
  | Call.reserve k n => w.put k (buffer_reserve M w.heap (w.bufs k) n)
  | Call.resize k n v => w.put k (buffer_resize M w.heap (w.bufs k) n v)
  | Call.clear k => w.put k (buffer_clear w.heap (w.bufs k))
  | Call.insert k i src =>
      w.put k (buffer_insert M w.heap (w.bufs k) ((w.bufs k).first + i) src)
  | Call.erase k i j =>
      let r := buffer_erase w.heap (w.bufs k) ((w.bufs k).first + i) ((w.bufs k).first + j)
      w.put k (r.1, r.2.1)
  | Call.swap a b =>
      let r := buffer_swap w.heap (w.bufs a) (w.bufs b)
      { heap := r.1, bufs := fun j => if j = b then r.2.2 else if j = a then r.2.1 else w.bufs j }

/-- Perform a sequence of calls, first call first. -/
def run {α : Type} (M : Machine) : World α → List (Call α) → World α
  | w, [] => w
  | w, c :: cs => run M (step M w c) cs

/-- The position precondition of a call: `where` in `[begin, end]` for insert,
`begin <= first <= last <= end` for erase. -/
def Call.pre {α : Type} (w : World α) : Call α → Prop
  | Call.insert k i _ => i ≤ (w.bufs k).size
  | Call.erase k i j => i ≤ j ∧ j ≤ (w.bufs k).size
  | _ => True

/-- The sizes a call asks for can be addressed: the request of a `reserve` or a
`resize` is `reservable`; the growth request of an insert that has to grow does not
wrap (`3 * newsize < 2 ^ wordBits`) and is `reservable`. -/
def Call.fits {α : Type} (M : Machine) (w : World α) : Call α → Prop
  | Call.reserve k n => reservable M w.heap (w.bufs k) n
  | Call.resize k n _ => reservable M w.heap (w.bufs k) n
  | Call.insert k _ src =>
      (w.bufs k).first + ((w.bufs k).size + src.length) > (w.bufs k).capacity →
        3 * ((w.bufs k).size + src.length) < 2 ^ M.wordBits
        ∧ reservable M w.heap (w.bufs k) (grow_target M ((w.bufs k).size + src.length))
  | _ => True

/-- Every call of the sequence meets its position precondition in the state it
is made in. -/
def valid {α : Type} (M : Machine) : World α → List (Call α) → Prop
  | _, [] => True
  | w, c :: cs => c.pre w ∧ valid M (step M w c) cs

/-- Every call of the sequence asks for sizes that can be addressed, in the state
it is made in. -/
def fitting {α : Type} (M : Machine) : World α → List (Call α) → Prop
  | _, [] => True
  | w, c :: cs => c.fits M w ∧ fitting M (step M w c) cs

/-- Invariant 2 of the data model: exactly the slots of `[begin, end)` are
constructed, those of `[end, capacityEnd)` are not. -/
def slots_ok {α : Type} (h : Heap α) (b : buffer) : Prop :=
  ∀ a, (b.first ≤ a ∧ a < b.last → h.constructed a = true)
     ∧ (b.last ≤ a ∧ a < b.capacity → h.constructed a = false)

/-- The number of placement-new events of a trace. -/
def constructions (t : List Event) : Nat :=
  (t.filter (fun e => match e with | Event.construct _ => true | _ => false)).length

/-- The number of destructor events of a trace. -/
def destructions (t : List Event) : Nat :=
  (t.filter (fun e => match e with | Event.destruct _ => true | _ => false)).length

/-- The allocator calls of a trace. -/
def allocator_calls (t : List Event) : List Event :=
  t.filter (fun e => match e with
    | Event.allocate _ _ => true
    | Event.deallocate _ _ => true
    | _ => false)

/-- A heap whose slot `a` holds the value `a`, with the slots `1, 2, 3`
constructed and the addresses below `4` handed out. -/
def demo_heap : Heap Nat :=
  { mem := fun a => a, constructed := fun a => decide (1 ≤ a ∧ a < 4), brk := 4, trace := [] }

/-- A full buffer over the slots `1, 2, 3` of `demo_heap`: contents `[1, 2, 3]`. -/
def demo_buf : buffer := { first := 1, last := 4, capacity := 4 }

/-- A 64-bit target with 4-byte elements (`int`). -/
def M64 : Machine := { wordBits := 64, sizeofT := 4 }

/-- A 32-bit target with 1-byte elements (`char`). -/
def M32 : Machine := { wordBits := 32, sizeofT := 1 }

/-! ## Replaying a trace -/

/-- The effect of one event on the constructed bits. -/
def Event.apply (c : Nat → Bool) : Event → Nat → Bool
  | Event.construct p => fun a => if a = p then true else c a
  | Event.destruct p => fun a => if a = p then false else c a
  | Event.allocate _ _ => c
  | Event.deallocate _ _ => c

/-- The constructed bits after the events of a trace, starting from the bits `c`. -/
def replay (c : Nat → Bool) : List Event → Nat → Bool
  | [] => c
  | e :: t => replay (e.apply c) t

/-- Every placement new of the trace, replayed from the bits `c`, targets a slot
that is unconstructed at that moment. -/
def fresh_constructs (c : Nat → Bool) : List Event → Bool
  | [] => true
  | Event.construct p :: t => !c p && fresh_constructs ((Event.construct p).apply c) t
  | Event.destruct p :: t => fresh_constructs ((Event.destruct p).apply c) t
  | Event.allocate _ _ :: t => fresh_constructs c t
  | Event.deallocate _ _ :: t => fresh_constructs c t

/-- The events of a tail shift by `k` slots that runs from the highest index
downward: for `t = 0, 1, ..., n - 1` the slot `it + k - 1 - t` is constructed from
the slot `it - 1 - t`, and that source slot is destructed right after. -/
def shift_events (n it k : Nat) : List Event :=
  (List.range n).flatMap
    (fun t => [Event.construct (it + k - 1 - t), Event.destruct (it - 1 - t)])

/-- The pointers returned by the allocate calls of a trace. -/
def allocated (t : List Event) : List Nat :=
  t.filterMap (fun e => match e with
    | Event.allocate _ p => some p
    | _ => none)

/-- The pointers passed to the deallocate calls of a trace. -/
def deallocated (t : List Event) : List Nat :=
  t.filterMap (fun e => match e with
    | Event.deallocate p _ => some p
    | _ => none)

/-- The invariants of the data model for a buffer in a heap: the buffer is
ordered and owns a block below the allocator's break, exactly the slots of
`[begin, end)` among those of `[begin, capacityEnd)` are constructed, and no slot
the allocator can still hand out is constructed. -/
def well_formed {α : Type} (h : Heap α) (b : buffer) : Prop :=
  owned h b ∧ slots_ok h b ∧ ∀ a, h.brk ≤ a → h.constructed a = false

/-- The calls of the scenario of the spec on one `int` buffer: resize to 3 with
fill 7, insert `{1, 2}` before index 1, erase `[3, 5)`. -/
def scenario_calls : List (Call Nat) :=
  [Call.resize 0 3 7, Call.insert 0 1 [1, 2], Call.erase 0 3 5]

/-- The world of the scenario after its first `m` calls, from `buffer_init` on an
empty heap of a 64-bit target. -/
def scenario (m : Nat) : World Nat :=
  run M64 (World.init (Heap.empty 0)) (scenario_calls.take m)

/-- The heap at the end of the scenario: after the three calls and the final
`buffer_destroy`. -/
def scenario_end : Heap Nat :=
  buffer_destroy M64 (scenario 3).heap ((scenario 3).bufs 0)

/-- The state of `buffer_insert` after its growth step (`buffer.h` lines 109-112):
the heap and the buffer the shift starts from. -/
def insert_grown {α : Type} (M : Machine) (h : Heap α) (b : buffer) (src : List α) :
    Heap α × buffer :=
  if b.first + ((b.last - b.first) + src.length) > b.capacity
  then buffer_reserve M h b (grow_target M ((b.last - b.first) + src.length))
  else (h, b)

/-- The heap of `buffer_insert` at the end of its shift loop (`buffer.h` lines
115-120), before the incoming range is copied in. -/
def insert_shifted {α : Type} (M : Machine) (h : Heap α) (b : buffer) (where_ : Nat)
    (src : List α) : Heap α :=
  insert_shift ((insert_grown M h b src).2.last - ((insert_grown M h b src).2.first + (where_ - b.first)))
    (insert_grown M h b src).2.last ((insert_grown M h b src).2.last + src.length)
    (insert_grown M h b src).1

/-- A 32-bit heap of one-byte elements whose slots `1 .. 1431655766` are
constructed: `1 .. 1431655765` are the elements of `wrap_buf`, the slot
`1431655766` right behind its block belongs to a neighbour. -/
def wrap_heap : Heap Nat :=
  { mem := fun _ => 0, constructed := fun a => decide (1 ≤ a ∧ a ≤ 1431655766),
    brk := 1431655767, trace := [] }

/-- A full buffer of 1431655765 one-byte elements in `wrap_heap`. -/
def wrap_buf : buffer := { first := 1, last := 1431655766, capacity := 1431655766 }

variable {α : Type}

/-! ## The loops -/

@[simp] theorem destroy_loop_mem (n p : Nat) (h : Heap α) :
    (destroy_loop n p h).mem = h.mem := by
  induction n generalizing p h with
  | zero => rfl
  | succ n ih => simp [destroy_loop, ih, Heap.destructor]

@[simp] theorem destroy_loop_brk (n p : Nat) (h : Heap α) :
    (destroy_loop n p h).brk = h.brk := by
  induction n generalizing p h with
  | zero => rfl
  | succ n ih => simp [destroy_loop, ih, Heap.destructor]

theorem destroy_loop_trace (n p : Nat) (h : Heap α) :
    (destroy_loop n p h).trace
      = h.trace ++ (List.range n).map (fun k => Event.destruct (p + k)) := by
  induction n generalizing p h with
  | zero => simp [destroy_loop]
  | succ n ih =>
    simp only [destroy_loop, ih, Heap.destructor, List.append_assoc]
    rw [show n + 1 = 1 + n by omega, List.range_add, show List.range 1 = [0] from rfl]
    simp [List.map_map, Function.comp_def, Nat.add_assoc]

theorem copy_loop_mem (n it dest : Nat) (h : Heap α) (hd : dest ≤ it ∨ it + n ≤ dest) (a : Nat) :
    (copy_loop n it dest h).mem a
      = if dest ≤ a ∧ a < dest + n then h.mem (it + (a - dest)) else h.mem a := by
  induction n generalizing it dest h with
  | zero => rw [if_neg (by omega)]; rfl
  | succ n ih =>
    simp only [copy_loop]
    rw [ih (it + 1) (dest + 1) _ (by omega)]
    simp only [Heap.placement_new]
    split_ifs <;> first | omega | rfl | (congr 1; omega)

theorem contents_length (h : Heap α) (b : buffer) :
    (contents h b).length = b.last - b.first := by
  simp [contents]

theorem contents_getElem (h : Heap α) (b : buffer) (k : Nat) (hk : k < (contents h b).length) :
    (contents h b)[k] = h.mem (b.first + k) := by
  simp [contents]

theorem contents_eq_of (h : Heap α) (b : buffer) (l : List α)
    (hlen : l.length = b.last - b.first)
    (hval : ∀ k (hk : k < l.length), h.mem (b.first + k) = l[k]) : contents h b = l := by
  apply List.ext_getElem (by simp [contents, hlen])
  intro n h1 h2
  rw [contents_getElem]
  exact hval n h2

/-! ## buffer_reserve -/

@[simp] theorem buffer_destroy_mem (M : Machine) (h : Heap α) (b : buffer) :
    (buffer_destroy M h b).mem = h.mem := by
  simp [buffer_destroy, static_deallocate, buffer_destroy_range]

theorem ptr_add_bytes_le (M : Machine) (p n : Nat) :
    ptr_add_bytes M p n ≤ (p + n) * M.sizeofT := by
  unfold ptr_add_bytes
  rw [Nat.add_mul]
  exact Nat.mod_le _ _

theorem ptr_add_bytes_exact (M : Machine) (p n : Nat) (ha : addressable M p n) :
    ptr_add_bytes M p n = (p + n) * M.sizeofT := by
  unfold ptr_add_bytes
  rw [← Nat.add_mul]
  exact Nat.mod_eq_of_lt ha.2

/-- A request that the capacity already covers is a no-op, whatever the word size. -/
theorem buffer_reserve_noop (M : Machine) (h : Heap α) (b : buffer) (n : Nat)
    (hn : b.first + n ≤ b.capacity) : buffer_reserve M h b n = (h, b) := by
  unfold buffer_reserve
  rw [if_pos (le_trans (ptr_add_bytes_le M _ _) (Nat.mul_le_mul_right _ hn))]

/-- The result of `buffer_reserve` when its guard fails. -/
theorem buffer_reserve_moved (M : Machine) (h : Heap α) (b : buffer) (n : Nat)
    (hg : ¬ ptr_add_bytes M b.first n ≤ b.capacity * M.sizeofT) :
    buffer_reserve M h b n
      = (buffer_destroy M
          (copy_loop (b.last - b.first) b.first h.brk
            (static_allocate M h ((M.sizeofT * n) % 2 ^ M.wordBits)).2) b,
         { first := h.brk, last := h.brk + (b.last - b.first),
           capacity := ptr_add_bytes M h.brk n / M.sizeofT }) := by
  unfold buffer_reserve
  rw [if_neg hg]
  rfl

/-- An addressable request above the capacity moves the buffer to a block of
exactly `n` slots, obtained by one allocation of `sizeof(T) * n` bytes. -/
theorem buffer_reserve_grow (M : Machine) (h : Heap α) (b : buffer) (n : Nat)
    (hr : reservable M h b n) (hn : b.capacity < b.first + n) :
    buffer_reserve M h b n
      = (buffer_destroy M
          (copy_loop (b.last - b.first) b.first h.brk (static_allocate M h (M.sizeofT * n)).2) b,
         { first := h.brk, last := h.brk + (b.last - b.first), capacity := h.brk + n }) := by
  obtain ⟨ha, hb⟩ := hr
  have hg : ¬ ptr_add_bytes M b.first n ≤ b.capacity * M.sizeofT := by
    rw [ptr_add_bytes_exact M _ _ ha]
    intro hle
    have := Nat.le_of_mul_le_mul_right hle ha.1
    omega
  have hbytes : (M.sizeofT * n) % 2 ^ M.wordBits = M.sizeofT * n := by
    apply Nat.mod_eq_of_lt
    refine lt_of_le_of_lt ?_ ha.2
    rw [Nat.mul_comm]
    exact Nat.mul_le_mul_right _ (Nat.le_add_left _ _)
  rw [buffer_reserve_moved M h b n hg, ptr_add_bytes_exact M _ _ (hb hn),
    Nat.mul_div_cancel _ ha.1, hbytes]

/-- What `buffer_reserve` does to `begin`, `end` and the stored values, whatever
the request. -/
theorem buffer_reserve_spec (M : Machine) (h : Heap α) (b : buffer) (n : Nat)
    (hb : owned h b) :
    (buffer_reserve M h b n).2.first ≤ (buffer_reserve M h b n).2.last
    ∧ (buffer_reserve M h b n).2.last - (buffer_reserve M h b n).2.first = b.last - b.first
    ∧ ∀ k, k < b.last - b.first →
        (buffer_reserve M h b n).1.mem ((buffer_reserve M h b n).2.first + k) = h.mem (b.first + k) := by
  obtain ⟨⟨h1, h2⟩, h3⟩ := hb
  by_cases hg : ptr_add_bytes M b.first n ≤ b.capacity * M.sizeofT
  · have e : buffer_reserve M h b n = (h, b) := by
      unfold buffer_reserve
      rw [if_pos hg]
    rw [e]
    exact ⟨h1, rfl, fun _ _ => rfl⟩
  · rw [buffer_reserve_moved M h b n hg]
    refine ⟨by simp, by simp, ?_⟩
    intro k hk
    simp only [buffer_destroy_mem, static_allocate]
    rw [copy_loop_mem _ _ _ _ (Or.inr (by omega))]
    rw [if_pos (by omega)]
    show h.mem (b.first + (h.brk + k - h.brk)) = h.mem (b.first + k)
    congr 1; omega

theorem contents_getElem? (h : Heap α) (b : buffer) (k : Nat) :
    (contents h b)[k]? = if k < b.last - b.first then some (h.mem (b.first + k)) else none := by
  unfold contents
  split_ifs with hk
  · rw [List.getElem?_map, List.getElem?_range hk]; rfl
  · rw [List.getElem?_eq_none]; simpa using hk

theorem contents_eq_of? (h : Heap α) (b : buffer) (l : List α)
    (hlen : l.length = b.last - b.first)
    (hval : ∀ k, k < b.last - b.first → l[k]? = some (h.mem (b.first + k))) :
    contents h b = l := by
  apply List.ext_getElem?
  intro k
  rw [contents_getElem?]
  split_ifs with hk
  · exact (hval k hk).symm
  · symm; rw [List.getElem?_eq_none]; omega

theorem buffer_erase_contents (h : Heap α) (b : buffer) (i j : Nat)
    (hb : b.first ≤ b.last) (hij : i ≤ j) (hj : j ≤ b.last - b.first) :
    contents (buffer_erase h b (b.first + i) (b.first + j)).1
        (buffer_erase h b (b.first + i) (b.first + j)).2.1
      = (contents h b).take i ++ (contents h b).drop j := by
  apply contents_eq_of?
  · simp [buffer_erase, contents_length]; omega
  · intro k hk
    simp only [buffer_erase, buffer_destroy_range] at hk ⊢
    have e : (copy_loop (b.last - (b.first + j)) (b.first + j) (b.first + i)
        (destroy_loop (b.first + j - (b.first + i)) (b.first + i) h)).mem (b.first + k)
        = if k < i then h.mem (b.first + k) else h.mem (b.first + (j + (k - i))) := by
      rw [copy_loop_mem _ _ _ _ (Or.inl (by omega)), destroy_loop_mem]
      split_ifs <;> first | omega | rfl | (congr 1; omega)
    rw [e]
    simp only [List.getElem?_append, List.getElem?_take, List.getElem?_drop, List.length_take,
      contents_length, contents_getElem?, min_eq_left (le_trans hij hj)]
    split_ifs <;> first | omega | rfl

/-- Inside the capacity the pointer `b->first + size` of `buffer_resize` is the
exact sum. -/
theorem resize_end_of_le (M : Machine) (b : buffer) (n : Nat)
    (hle : b.first + n ≤ b.capacity) : resize_end M b n = b.first + n := by
  unfold resize_end
  split_ifs with hv
  · have h1 : (b.first + n) * M.sizeofT < 2 ^ M.wordBits :=
      lt_of_le_of_lt (Nat.mul_le_mul_right _ hle) hv.2
    rw [ptr_add_bytes_exact M _ _ ⟨hv.1, h1⟩, Nat.mul_div_cancel _ hv.1]
  · rfl

/-- What an addressable `buffer_reserve` does to the three pointers. -/
theorem buffer_reserve_ptrs (M : Machine) (h : Heap α) (b : buffer) (n : Nat)
    (hb : ordered b) (hr : reservable M h b n) :
    ordered (buffer_reserve M h b n).2
    ∧ (buffer_reserve M h b n).2.first + n ≤ (buffer_reserve M h b n).2.capacity
    ∧ (buffer_reserve M h b n).2.last - (buffer_reserve M h b n).2.first = b.last - b.first
    ∧ b.capacity - b.first ≤ (buffer_reserve M h b n).2.capacity - (buffer_reserve M h b n).2.first
    ∧ (b.first + n ≤ b.capacity → (buffer_reserve M h b n).2 = b)
    ∧ (b.capacity < b.first + n →
        (buffer_reserve M h b n).2.capacity = (buffer_reserve M h b n).2.first + n) := by
  obtain ⟨h1, h2⟩ := hb
  unfold ordered
  by_cases hc : b.first + n ≤ b.capacity
  · rw [buffer_reserve_noop M h b n hc]
    exact ⟨⟨h1, h2⟩, hc, rfl, le_refl _, fun _ => rfl, fun hlt => absurd hc (by omega)⟩
  · rw [buffer_reserve_grow M h b n hr (by omega)]
    refine ⟨⟨by simp, by simp; omega⟩, by simp, by simp, by simp; omega, fun hle => absurd hle hc,
      fun _ => rfl⟩

theorem buffer_reserve_contents (M : Machine) (h : Heap α) (b : buffer) (n : Nat)
    (hb : owned h b) :
    contents (buffer_reserve M h b n).1 (buffer_reserve M h b n).2 = contents h b := by
  obtain ⟨_, g4, g6⟩ := buffer_reserve_spec M h b n hb
  apply contents_eq_of?
  · rw [contents_length, g4]
  · intro k hk
    rw [contents_getElem?, if_pos (by omega), g6 k (by omega)]

theorem grow_target_ge (M : Machine) (n : Nat) (hn : 3 * n < 2 ^ M.wordBits) :
    n ≤ grow_target M n := by
  unfold grow_target
  rw [Nat.mod_eq_of_lt (by omega)]
  omega

/-- C2: for a buffer that satisfies the invariants, with contents `xs` and
`0 ≤ i ≤ j ≤ size`, `buffer_erase(b, begin + i, begin + j)` leaves the contents
`xs[0..i) ++ xs[j..size)`, moves `end` down by `j - i`, keeps `begin` and
`capacityEnd`, and returns `begin + i`; with `i = j` contents and pointers are as
before. -/
theorem buffer_erase_correct (h : Heap α) (b : buffer) (i j : Nat)
    (hb : ordered b) (hij : i ≤ j) (hj : j ≤ b.size) :
    contents (buffer_erase h b (b.first + i) (b.first + j)).1
        (buffer_erase h b (b.first + i) (b.first + j)).2.1
        = (contents h b).take i ++ (contents h b).drop j
    ∧ (buffer_erase h b (b.first + i) (b.first + j)).2.1.last + (j - i) = b.last
    ∧ (buffer_erase h b (b.first + i) (b.first + j)).2.1.first = b.first
    ∧ (buffer_erase h b (b.first + i) (b.first + j)).2.1.capacity = b.capacity
    ∧ (buffer_erase h b (b.first + i) (b.first + j)).2.2 = b.first + i
    ∧ (i = j →
        contents (buffer_erase h b (b.first + i) (b.first + j)).1
            (buffer_erase h b (b.first + i) (b.first + j)).2.1 = contents h b
        ∧ (buffer_erase h b (b.first + i) (b.first + j)).2.1 = b) := by
  have hc := buffer_erase_contents h b i j hb.1 hij hj
  unfold buffer.size at hj
  refine ⟨hc, ?_, rfl, rfl, rfl, ?_⟩
  · simp only [buffer_erase]; omega
  · intro e
    subst e
    refine ⟨by rw [hc, List.take_append_drop], ?_⟩
    simp [buffer_erase]

/-- Instance of C2: erasing `[1, 2)` from `[1, 2, 3]`. -/
theorem buffer_erase_correct_witness :
    ordered demo_buf ∧ 1 ≤ 2 ∧ 2 ≤ demo_buf.size
    ∧ contents (buffer_erase demo_heap demo_buf (demo_buf.first + 1) (demo_buf.first + 2)).1
        (buffer_erase demo_heap demo_buf (demo_buf.first + 1) (demo_buf.first + 2)).2.1 = [1, 3] :=
  ⟨by decide, by decide, by decide,
    (buffer_erase_correct demo_heap demo_buf 1 2 (by decide) (by decide) (by decide)).1⟩

/-- C3, amended: for a buffer that satisfies the invariants and every `n`, after
`buffer_reserve(b, n)` the size is unchanged and the contents are the same elements
in the same order; and for every `n` that can be addressed (`begin + n` and, where a
new block is needed, the end of that block lie below `2 ^ wordBits` in bytes) the
capacity is at least `n` and at least what it was. -/
theorem buffer_reserve_correct (M : Machine) (h : Heap α) (b : buffer) (n : Nat)
    (hb : owned h b) :
    (buffer_reserve M h b n).2.size = b.size
    ∧ contents (buffer_reserve M h b n).1 (buffer_reserve M h b n).2 = contents h b
    ∧ (reservable M h b n →
        n ≤ (buffer_reserve M h b n).2.cap ∧ b.cap ≤ (buffer_reserve M h b n).2.cap) := by
  obtain ⟨_, s2, _⟩ := buffer_reserve_spec M h b n hb
  refine ⟨s2, buffer_reserve_contents M h b n hb, ?_⟩
  intro hr
  obtain ⟨_, g2, g3, g4, _, _⟩ := buffer_reserve_ptrs M h b n hb.1 hr
  unfold buffer.cap
  exact ⟨by omega, g4⟩

/-- Instance of C3: reserving 6 slots for the full buffer `[1, 2, 3]` (relocates). -/
theorem buffer_reserve_correct_witness :
    owned demo_heap demo_buf ∧ reservable M64 demo_heap demo_buf 6
    ∧ 6 ≤ (buffer_reserve M64 demo_heap demo_buf 6).2.cap
    ∧ demo_buf.cap ≤ (buffer_reserve M64 demo_heap demo_buf 6).2.cap
    ∧ (buffer_reserve M64 demo_heap demo_buf 6).2.size = demo_buf.size
    ∧ contents (buffer_reserve M64 demo_heap demo_buf 6).1 (buffer_reserve M64 demo_heap demo_buf 6).2
        = contents demo_heap demo_buf :=
  ⟨by decide, by decide,
    ((buffer_reserve_correct M64 demo_heap demo_buf 6 (by decide)).2.2 (by decide)).1,
    ((buffer_reserve_correct M64 demo_heap demo_buf 6 (by decide)).2.2 (by decide)).2,
    (buffer_reserve_correct M64 demo_heap demo_buf 6 (by decide)).1,
    (buffer_reserve_correct M64 demo_heap demo_buf 6 (by decide)).2.1⟩

/-- C3 fails as stated: on a 64-bit target with 4-byte elements,
`buffer_reserve(b, 2^62)` on the buffer `[1, 2, 3]` of capacity 3 computes
`b->first + capacity` as `begin + 2^64` bytes, which wraps to `begin`; the guard
passes, nothing is reserved, and the capacity stays 3, below the request. -/
theorem buffer_reserve_wraps :
    owned demo_heap demo_buf
    ∧ (buffer_reserve M64 demo_heap demo_buf 4611686018427387904).2 = demo_buf
    ∧ (buffer_reserve M64 demo_heap demo_buf 4611686018427387904).2.cap = 3
    ∧ ¬ (4611686018427387904 ≤ (buffer_reserve M64 demo_heap demo_buf 4611686018427387904).2.cap) := by
  decide

theorem buffer_insert_ordered (M : Machine) (h : Heap α) (b : buffer) (wh : Nat) (src : List α)
    (hb : ordered b)
    (hfit : b.first + (b.size + src.length) > b.capacity →
      3 * (b.size + src.length) < 2 ^ M.wordBits
      ∧ reservable M h b (grow_target M (b.size + src.length))) :
    ordered (buffer_insert M h b wh src).2 := by
  have hb' := hb
  obtain ⟨h1, h2⟩ := hb'
  unfold buffer.size at hfit
  unfold buffer_insert ordered
  simp only
  split_ifs with hc
  · obtain ⟨⟨o1, o2⟩, g2, g3, _⟩ := buffer_reserve_ptrs M h b
      (grow_target M (b.last - b.first + src.length)) hb (hfit hc).2
    have := grow_target_ge M _ (hfit hc).1
    exact ⟨by omega, by omega⟩
  · dsimp only
    omega

theorem buffer_resize_ordered (M : Machine) (h : Heap α) (b : buffer) (n : Nat) (v : α)
    (hb : ordered b) (hr : reservable M h b n) : ordered (buffer_resize M h b n v).2 := by
  obtain ⟨_, g2, _⟩ := buffer_reserve_ptrs M h b n hb hr
  have he := resize_end_of_le M _ n g2
  unfold buffer_resize ordered
  simp only [he]
  exact ⟨by omega, g2⟩

theorem buffer_erase_ordered (h : Heap α) (b : buffer) (i j : Nat)
    (hb : ordered b) (hij : i ≤ j) (hj : j ≤ b.size) :
    ordered (buffer_erase h b (b.first + i) (b.first + j)).2.1 := by
  obtain ⟨h1, h2⟩ := hb
  unfold buffer.size at hj
  unfold buffer_erase ordered
  simp only
  omega

theorem step_ordered (M : Machine) (w : World α) (c : Call α)
    (hw : ∀ k, ordered (w.bufs k)) (hp : c.pre w) (hf : c.fits M w) :
    ∀ k, ordered ((step M w c).bufs k) := by
  intro k
  cases c with
  | reserve b n =>
    simp only [step, World.put]
    split_ifs
    · exact (buffer_reserve_ptrs M _ _ n (hw b) hf).1
    · exact hw k
  | resize b n v =>
    simp only [step, World.put]
    split_ifs
    · exact buffer_resize_ordered M _ _ n v (hw b) hf
    · exact hw k
  | clear b =>
    simp only [step, World.put, buffer_clear]
    split_ifs
    · exact ⟨le_refl _, le_trans (hw b).1 (hw b).2⟩
    · exact hw k
  | insert b i src =>
    simp only [step, World.put]
    split_ifs
    · exact buffer_insert_ordered M _ _ _ src (hw b) hf
    · exact hw k
  | erase b i j =>
    simp only [step, World.put]
    split_ifs
    · exact buffer_erase_ordered _ _ i j (hw b) hp.1 hp.2
    · exact hw k
  | swap a b =>
    simp only [step, buffer_swap]
    split_ifs
    · exact hw a
    · exact hw b
    · exact hw k

theorem run_ordered (M : Machine) (calls : List (Call α)) :
    ∀ (w : World α), (∀ k, ordered (w.bufs k)) → valid M w calls → fitting M w calls →
      ∀ m k, ordered ((run M w (calls.take m)).bufs k) := by
  induction calls with
  | nil => intro w hw _ _ m k; simpa [run] using hw k
  | cons c cs ih =>
    intro w hw hv hf m k
    cases m with
    | zero => simpa [run] using hw k
    | succ m =>
      simp only [List.take_succ_cons, run]
      exact ih (step M w c) (step_ordered M w c hw hv.1 hf.1) hv.2 hf.2 m k

/-- C5, amended: starting from `buffer_init`, along every sequence of calls to
reserve, resize, clear, insert, erase and swap whose position arguments meet
their preconditions and whose sizes can be addressed (the request of every reserve
and resize, and the growth request of every growing insert, keeps `begin + n` and
the end of a new block below `2 ^ wordBits` in bytes, and no growing insert wraps
`newsize * 3`), `begin <= end <= capacityEnd` holds for every buffer after each
call (after the first `m` calls, for every `m`). -/
theorem ordering_invariant (M : Machine) (h0 : Heap α) (calls : List (Call α))
    (hv : valid M (World.init h0) calls) (hf : fitting M (World.init h0) calls) :
    ∀ m k, ordered ((run M (World.init h0) (calls.take m)).bufs k) :=
  run_ordered M calls (World.init h0) (fun _ => ⟨le_refl _, le_refl _⟩) hv hf

/-- Instance of C5: resize to 3, insert two elements at index 1, erase `[3, 5)`,
swap with a second buffer, on a 64-bit target. -/
theorem ordering_invariant_witness :
    valid M64 (World.init (Heap.empty 0))
      [Call.resize 0 3 7, Call.insert 0 1 [1, 2], Call.erase 0 3 5, Call.swap 0 1]
    ∧ fitting M64 (World.init (Heap.empty 0))
      [Call.resize 0 3 7, Call.insert 0 1 [1, 2], Call.erase 0 3 5, Call.swap 0 1]
    ∧ ∀ m k, ordered ((run M64 (World.init (Heap.empty 0))
        ([Call.resize 0 3 7, Call.insert 0 1 [1, 2], Call.erase 0 3 5, Call.swap 0 1].take m)).bufs k) :=
  have hv : valid M64 (World.init (Heap.empty 0))
      [Call.resize 0 3 7, Call.insert 0 1 [1, 2], Call.erase 0 3 5, Call.swap 0 1] := by
    simp only [valid, Call.pre]; decide
  have hf : fitting M64 (World.init (Heap.empty 0))
      [Call.resize 0 3 7, Call.insert 0 1 [1, 2], Call.erase 0 3 5, Call.swap 0 1] := by
    simp only [fitting, Call.fits]; decide
  ⟨hv, hf, ordering_invariant M64 (Heap.empty 0) _ hv hf⟩

theorem buffer_insert_init_wrap (h : Heap α) (src : List α) (hlen : src.length = 1431655766) :
    (buffer_insert M32 h buffer_init (buffer_init.first + 0) src).2
      = { first := h.brk, last := h.brk + 1431655766,
          capacity := ptr_add_bytes M32 h.brk 1 / M32.sizeofT } := by
  have e : grow_target M32 1431655766 = 1 := by decide
  have hg : ¬ ptr_add_bytes M32 buffer_init.first 1 ≤ buffer_init.capacity * M32.sizeofT := by
    decide
  have hs : buffer_init.last - buffer_init.first + src.length = 1431655766 := by
    rw [hlen]; rfl
  have hc : buffer_init.first + 1431655766 > buffer_init.capacity := by decide
  simp only [buffer_insert, hs, if_pos hc, e, buffer_reserve_moved M32 h buffer_init 1 hg]

/-- C5 fails as stated: on a 32-bit target, inserting 1431655766 one-byte elements
into a freshly initialised buffer meets the position precondition, requests
`(3 * 1431655766 mod 2^32) / 2 = 1` slot, and leaves `end` above `capacityEnd`. -/
theorem ordering_invariant_wraps :
    valid M32 (World.init (Heap.empty (0 : Nat)))
      [Call.insert 0 0 (List.replicate 1431655766 0)]
    ∧ ¬ ordered ((run M32 (World.init (Heap.empty (0 : Nat)))
        [Call.insert 0 0 (List.replicate 1431655766 0)]).bufs 0) := by
  constructor
  · simp [valid, Call.pre]
  · simp only [run, step, World.put, World.init, if_true]
    rw [buffer_insert_init_wrap _ _ (List.length_replicate _ _)]
    decide

/-- C6 at its failing input: after `buffer_init`, `buffer_resize(b, 3, 7)` and
`buffer_erase(b, begin, begin + 1)` (a valid sequence), `end` is `begin + 2` and
the slot at `end`, below `capacityEnd`, is still constructed: `buffer_erase`
never destructs the slots it copies from. -/
theorem erase_leaves_slot_constructed :
    valid M64 (World.init (Heap.empty 0)) [Call.resize 0 3 7, Call.erase 0 0 1]
    ∧ ((run M64 (World.init (Heap.empty 0)) [Call.resize 0 3 7, Call.erase 0 0 1]).bufs 0)
        = { first := 1, last := 3, capacity := 4 }
    ∧ (run M64 (World.init (Heap.empty 0)) [Call.resize 0 3 7, Call.erase 0 0 1]).heap.constructed 3
        = true
    ∧ ¬ slots_ok (run M64 (World.init (Heap.empty 0)) [Call.resize 0 3 7, Call.erase 0 0 1]).heap
        ((run M64 (World.init (Heap.empty 0)) [Call.resize 0 3 7, Call.erase 0 0 1]).bufs 0) := by
  refine ⟨by simp only [valid, Call.pre]; decide, by decide, by decide, ?_⟩
  intro H
  have h3 := (H 3).2
  revert h3
  decide

/-- C8: `buffer_swap(a, b)` leaves `a` with the former `(begin, end, capacityEnd)`
of `b` and `b` with the former triple of `a`; the heap, and with it the trace of
constructions, destructions and allocator calls, is untouched; swapping twice
restores both buffers. -/
theorem buffer_swap_correct (h : Heap α) (a b : buffer) :
    (buffer_swap h a b).2.1 = b
    ∧ (buffer_swap h a b).2.2 = a
    ∧ (buffer_swap h a b).1 = h
    ∧ (buffer_swap h a b).1.trace = h.trace
    ∧ buffer_swap (buffer_swap h a b).1 (buffer_swap h a b).2.1 (buffer_swap h a b).2.2
        = (h, a, b) :=
  ⟨rfl, rfl, rfl, rfl, rfl⟩

theorem buffer_resize_zero (M : Machine) (h : Heap α) (b : buffer) (x : α) (hb : ordered b) :
    buffer_resize M h b 0 x = buffer_clear h b := by
  obtain ⟨h1, h2⟩ := hb
  have hr : buffer_reserve M h b 0 = (h, b) := buffer_reserve_noop M h b 0 (by omega)
  have he : resize_end M b 0 = b.first := resize_end_of_le M b 0 (by omega)
  simp only [buffer_resize, buffer_clear, hr, he, Nat.sub_eq_zero_of_le h1, fill_loop]

/-- C9: for a buffer that satisfies the invariants, `buffer_clear(b)` appends to the
trace exactly one destructor call per live element, in forward index order, and
nothing else; it sets `end = begin` and keeps `begin` and `capacityEnd`; and for
every fill value `x`, `buffer_resize(b, 0, x)` yields the same heap (hence the same
trace) and the same buffer. -/
theorem buffer_clear_correct (M : Machine) (h : Heap α) (b : buffer) (hb : ordered b) :
    (buffer_clear h b).1.trace
        = h.trace ++ (List.range b.size).map (fun k => Event.destruct (b.first + k))
    ∧ (buffer_clear h b).2 = { first := b.first, last := b.first, capacity := b.capacity }
    ∧ (buffer_clear h b).2.size = 0
    ∧ ∀ x : α, buffer_resize M h b 0 x = buffer_clear h b :=
  ⟨destroy_loop_trace _ _ _, rfl, by simp [buffer.size, buffer_clear],
    fun x => buffer_resize_zero M h b x hb⟩

/-- Instance of C9: clearing `[1, 2, 3]`. -/
theorem buffer_clear_correct_witness :
    ordered demo_buf
    ∧ (buffer_clear demo_heap demo_buf).1.trace
        = demo_heap.trace ++ (List.range demo_buf.size).map (fun k => Event.destruct (demo_buf.first + k))
    ∧ (buffer_clear demo_heap demo_buf).1.trace
        = [Event.destruct 1, Event.destruct 2, Event.destruct 3]
    ∧ buffer_resize M64 demo_heap demo_buf 0 5 = buffer_clear demo_heap demo_buf :=
  ⟨by decide, (buffer_clear_correct M64 demo_heap demo_buf (by decide)).1, by decide,
    (buffer_clear_correct M64 demo_heap demo_buf (by decide)).2.2.2 5⟩

/-- The events of `buffer_destroy`: the live slots are destructed in forward order,
then `static_deallocate` is called once, with `begin` and the cast difference
`first - last` in bytes. -/
theorem buffer_destroy_trace (M : Machine) (h : Heap α) (b : buffer) :
    (buffer_destroy M h b).trace
      = h.trace ++ (List.range (b.last - b.first)).map (fun k => Event.destruct (b.first + k))
          ++ [Event.deallocate b.first
                (size_t_cast M ((b.first : Int) * M.sizeofT - (b.last : Int) * M.sizeofT))] := by
  simp only [buffer_destroy, static_deallocate, buffer_destroy_range, destroy_loop_trace]

/-- C10 at its failing input: destroying the `int` buffer `[1, 2, 3]` (capacity 3,
12 bytes) on a 64-bit target destructs slots 1, 2, 3 in forward order and then
calls `static_deallocate(begin, 2^64 - 12)`: the byte size passed is
`(size_t)((char*)first - (char*)last)`, not `(capacityEnd - begin) * sizeof(T)`. -/
theorem buffer_destroy_deallocate_bytes :
    (buffer_destroy M64 demo_heap demo_buf).trace
        = [Event.destruct 1, Event.destruct 2, Event.destruct 3,
           Event.deallocate 1 18446744073709551604]
    ∧ (demo_buf.capacity - demo_buf.first) * M64.sizeofT = 12 := by
  decide

/-! ## The events of the loops -/

theorem copy_loop_trace (n it dest : Nat) (h : Heap α) :
    (copy_loop n it dest h).trace
      = h.trace ++ (List.range n).map (fun k => Event.construct (dest + k)) := by
  induction n generalizing it dest h with
  | zero => simp [copy_loop]
  | succ n ih =>
    simp only [copy_loop, ih, Heap.placement_new, List.append_assoc]
    rw [show n + 1 = 1 + n by omega, List.range_add, show List.range 1 = [0] from rfl]
    simp [List.map_map, Function.comp_def, Nat.add_assoc]

theorem fill_loop_trace (n it : Nat) (v : α) (h : Heap α) :
    (fill_loop n it v h).trace
      = h.trace ++ (List.range n).map (fun k => Event.construct (it + k)) := by
  induction n generalizing it h with
  | zero => simp [fill_loop]
  | succ n ih =>
    simp only [fill_loop, ih, Heap.placement_new, List.append_assoc]
    rw [show n + 1 = 1 + n by omega, List.range_add, show List.range 1 = [0] from rfl]
    simp [List.map_map, Function.comp_def, Nat.add_assoc]

theorem insert_copy_trace (src : List α) (w : Nat) (h : Heap α) :
    (insert_copy src w h).trace
      = h.trace ++ (List.range src.length).map (fun k => Event.construct (w + k)) := by
  induction src generalizing w h with
  | nil => simp [insert_copy]
  | cons v src ih =>
    simp only [insert_copy, ih, Heap.placement_new, List.append_assoc, List.length_cons]
    rw [show src.length + 1 = 1 + src.length by omega, List.range_add,
      show List.range 1 = [0] from rfl]
    simp [List.map_map, Function.comp_def, Nat.add_assoc]

theorem shift_events_succ (n it k : Nat) (hn : 1 ≤ it) :
    shift_events (n + 1) it k
      = Event.construct (it + k - 1) :: Event.destruct (it - 1) :: shift_events n (it - 1) k := by
  unfold shift_events
  rw [show n + 1 = 1 + n by omega, List.range_add, show List.range 1 = [0] from rfl]
  simp only [List.flatMap_append, List.flatMap_cons, List.flatMap_nil, List.append_nil,
    List.flatMap_map, Nat.sub_zero, List.cons_append, List.nil_append]
  congr 2
  apply List.flatMap_congr
  intro t _
  simp only [List.cons.injEq, Event.construct.injEq, Event.destruct.injEq, and_true]
  constructor <;> omega

theorem insert_shift_trace (n it k : Nat) (h : Heap α) (hn : n ≤ it) :
    (insert_shift n it (it + k) h).trace = h.trace ++ shift_events n it k := by
  induction n generalizing it h with
  | zero => simp [insert_shift, shift_events]
  | succ n ih =>
    simp only [insert_shift, shift_events_succ n it k (by omega)]
    rw [show it + k - 1 = (it - 1) + k by omega, ih (it - 1) _ (by omega)]
    simp [buffer_destroy_range, destroy_loop, Heap.destructor, Heap.placement_new,
      show it - (it - 1) = 1 by omega]

/-! ## Allocator calls of the loops -/

theorem allocator_calls_construct (t : List Event) (p : Nat) :
    allocator_calls (t ++ [Event.construct p]) = allocator_calls t := by
  simp [allocator_calls, List.filter_append]

theorem allocator_calls_destruct (t : List Event) (p : Nat) :
    allocator_calls (t ++ [Event.destruct p]) = allocator_calls t := by
  simp [allocator_calls, List.filter_append]

theorem destroy_loop_allocator_calls (n p : Nat) (h : Heap α) :
    allocator_calls (destroy_loop n p h).trace = allocator_calls h.trace := by
  induction n generalizing p h with
  | zero => rfl
  | succ n ih => rw [destroy_loop, ih]; exact allocator_calls_destruct _ _

theorem fill_loop_allocator_calls (n it : Nat) (v : α) (h : Heap α) :
    allocator_calls (fill_loop n it v h).trace = allocator_calls h.trace := by
  induction n generalizing it h with
  | zero => rfl
  | succ n ih => rw [fill_loop, ih]; exact allocator_calls_construct _ _

theorem insert_copy_allocator_calls (src : List α) (w : Nat) (h : Heap α) :
    allocator_calls (insert_copy src w h).trace = allocator_calls h.trace := by
  induction src generalizing w h with
  | nil => rfl
  | cons v src ih => rw [insert_copy, ih]; exact allocator_calls_construct _ _

theorem insert_shift_allocator_calls (n it dest : Nat) (h : Heap α) :
    allocator_calls (insert_shift n it dest h).trace = allocator_calls h.trace := by
  induction n generalizing it dest h with
  | zero => rfl
  | succ n ih =>
    rw [insert_shift, ih, buffer_destroy_range, destroy_loop_allocator_calls]
    exact allocator_calls_construct _ _

/-- An insert that fits in the capacity keeps `begin` and `capacityEnd` and calls
the allocator not at all. -/
theorem buffer_insert_fits (M : Machine) (h : Heap α) (b : buffer) (wh : Nat) (src : List α)
    (hfit : b.first + ((b.last - b.first) + src.length) ≤ b.capacity) :
    allocator_calls (buffer_insert M h b wh src).1.trace = allocator_calls h.trace
    ∧ (buffer_insert M h b wh src).2.first = b.first
    ∧ (buffer_insert M h b wh src).2.capacity = b.capacity := by
  unfold buffer_insert
  simp only [gt_iff_lt, if_neg (Nat.not_lt.mpr hfit), insert_copy_allocator_calls,
    insert_shift_allocator_calls, and_self]

/-- A resize that fits in the capacity keeps `begin` and `capacityEnd` and calls the
allocator not at all. -/
theorem buffer_resize_fits (M : Machine) (h : Heap α) (b : buffer) (n : Nat) (v : α)
    (hfit : b.first + n ≤ b.capacity) :
    allocator_calls (buffer_resize M h b n v).1.trace = allocator_calls h.trace
    ∧ (buffer_resize M h b n v).2.first = b.first
    ∧ (buffer_resize M h b n v).2.capacity = b.capacity := by
  have hr : buffer_reserve M h b n = (h, b) := buffer_reserve_noop M h b n hfit
  simp only [buffer_resize, hr, buffer_destroy_range, destroy_loop_allocator_calls,
    fill_loop_allocator_calls, and_self]

/-- C11, amended: for a buffer that satisfies the invariants and an insert with new
total size `n = size + |ys|`: if `n ≤ capacity` the insert makes no allocator call
and keeps `begin` and `capacityEnd`; if `n > capacity`, `3 * n < 2 ^ wordBits` and
the request `3 * n / 2` can be addressed (`begin + 3 * n / 2` and the end of the new
block lie below `2 ^ wordBits` in bytes), the capacity afterwards is exactly
`3 * n / 2`; and after `buffer_clear(b)` an insert or a resize whose result fits in
the old capacity makes no allocator call and keeps `begin` and `capacityEnd`. -/
theorem insert_growth_policy (M : Machine) (h : Heap α) (b : buffer) (wh : Nat) (ys : List α)
    (hb : ordered b) :
    (b.size + ys.length ≤ b.cap →
        allocator_calls (buffer_insert M h b wh ys).1.trace = allocator_calls h.trace
        ∧ (buffer_insert M h b wh ys).2.first = b.first
        ∧ (buffer_insert M h b wh ys).2.capacity = b.capacity)
    ∧ (b.cap < b.size + ys.length → 3 * (b.size + ys.length) < 2 ^ M.wordBits →
        reservable M h b (grow_target M (b.size + ys.length)) →
        (buffer_insert M h b wh ys).2.cap = 3 * (b.size + ys.length) / 2)
    ∧ (ys.length ≤ b.cap →
        allocator_calls
            (buffer_insert M (buffer_clear h b).1 (buffer_clear h b).2 (buffer_clear h b).2.first ys).1.trace
          = allocator_calls h.trace
        ∧ (buffer_insert M (buffer_clear h b).1 (buffer_clear h b).2 (buffer_clear h b).2.first ys).2.first
          = b.first
        ∧ (buffer_insert M (buffer_clear h b).1 (buffer_clear h b).2 (buffer_clear h b).2.first ys).2.capacity
          = b.capacity)
    ∧ (∀ (n : Nat) (v : α), n ≤ b.cap →
        allocator_calls (buffer_resize M (buffer_clear h b).1 (buffer_clear h b).2 n v).1.trace
          = allocator_calls h.trace
        ∧ (buffer_resize M (buffer_clear h b).1 (buffer_clear h b).2 n v).2.first = b.first
        ∧ (buffer_resize M (buffer_clear h b).1 (buffer_clear h b).2 n v).2.capacity = b.capacity) := by
  obtain ⟨h1, h2⟩ := hb
  unfold buffer.size buffer.cap at *
  refine ⟨fun hn => buffer_insert_fits M h b _ ys (by omega), ?_, ?_, ?_⟩
  · intro hn hw hr
    have hg := grow_target_ge M _ hw
    have hg' : grow_target M (b.last - b.first + ys.length)
        = 3 * (b.last - b.first + ys.length) / 2 := by
      unfold grow_target
      rw [Nat.mod_eq_of_lt (by omega), Nat.mul_comm]
    obtain ⟨_, _, _, _, _, g6⟩ := buffer_reserve_ptrs M h b
      (grow_target M (b.last - b.first + ys.length)) ⟨h1, h2⟩ hr
    have e := g6 (by omega)
    simp only [buffer_insert, gt_iff_lt, if_pos (show b.capacity < b.first + (b.last - b.first + ys.length) by omega)]
    rw [e, ← hg']
    omega
  · intro hn
    obtain ⟨a1, a2, a3⟩ := buffer_insert_fits M (buffer_clear h b).1 (buffer_clear h b).2
      (buffer_clear h b).2.first ys (by simp only [buffer_clear]; omega)
    refine ⟨?_, a2, a3⟩
    rw [a1]
    exact destroy_loop_allocator_calls _ _ _
  · intro n v hn
    obtain ⟨a1, a2, a3⟩ := buffer_resize_fits M (buffer_clear h b).1 (buffer_clear h b).2 n v
      (by simp only [buffer_clear]; omega)
    refine ⟨?_, a2, a3⟩
    rw [a1]
    exact destroy_loop_allocator_calls _ _ _

/-- Instance of C11: two elements inserted into the full buffer `[1, 2, 3]` of
capacity 3 give capacity `3 * 5 / 2 = 7`; one element appended after a clear keeps
the block. -/
theorem insert_growth_policy_witness :
    ordered demo_buf
    ∧ reservable M64 demo_heap demo_buf (grow_target M64 (demo_buf.size + [7, 8].length))
    ∧ (buffer_insert M64 demo_heap demo_buf (demo_buf.first + 1) [7, 8]).2.cap
        = 3 * (demo_buf.size + [7, 8].length) / 2
    ∧ (buffer_insert M64 (buffer_clear demo_heap demo_buf).1 (buffer_clear demo_heap demo_buf).2
          (buffer_clear demo_heap demo_buf).2.first [7]).2.capacity = demo_buf.capacity :=
  ⟨by decide, by decide,
    (insert_growth_policy M64 demo_heap demo_buf (demo_buf.first + 1) [7, 8] (by decide)).2.1
      (by decide) (by decide) (by decide),
    ((insert_growth_policy M64 demo_heap demo_buf (demo_buf.first + 1) [7] (by decide)).2.2.1
      (by decide)).2.2⟩

/-- C11 fails as stated: on a 32-bit target, inserting `n = 1431655766` one-byte
elements into a freshly initialised buffer (capacity 0, so `n > capacity`) leaves
capacity 1, not `3 * n / 2 = 2147483649`. -/
theorem insert_growth_wraps :
    owned (Heap.empty (0 : Nat)) buffer_init
    ∧ buffer_init.cap < buffer_init.size + (List.replicate 1431655766 (0 : Nat)).length
    ∧ (buffer_insert M32 (Heap.empty (0 : Nat)) buffer_init (buffer_init.first + 0)
        (List.replicate 1431655766 0)).2.cap = 1
    ∧ (buffer_insert M32 (Heap.empty (0 : Nat)) buffer_init (buffer_init.first + 0)
        (List.replicate 1431655766 0)).2.cap
        ≠ 3 * (buffer_init.size + (List.replicate 1431655766 (0 : Nat)).length) / 2 := by
  have e := buffer_insert_init_wrap (Heap.empty (0 : Nat)) (List.replicate 1431655766 0)
    (List.length_replicate _ _)
  refine ⟨by decide, ?_, ?_, ?_⟩
  · rw [List.length_replicate]; decide
  · rw [e]; decide
  · rw [e, List.length_replicate]; decide

/-- C12 at its failing input: inserting an empty range before index 1 of
`[1, 2, 3]` keeps the three pointers and the stored values, and makes no allocator
call, but it constructs and then destructs the slots 3 and 2 of the tail: two
constructions, two destructions, and the slots 2 and 3 of `[begin, end)` are left
unconstructed. -/
theorem insert_empty_range_destructs_tail :
    owned demo_heap demo_buf ∧ slots_ok demo_heap demo_buf
    ∧ (buffer_insert M64 demo_heap demo_buf (demo_buf.first + 1) []).2 = demo_buf
    ∧ contents (buffer_insert M64 demo_heap demo_buf (demo_buf.first + 1) []).1
        (buffer_insert M64 demo_heap demo_buf (demo_buf.first + 1) []).2 = contents demo_heap demo_buf
    ∧ (buffer_insert M64 demo_heap demo_buf (demo_buf.first + 1) []).1.trace
        = [Event.construct 3, Event.destruct 3, Event.construct 2, Event.destruct 2]
    ∧ (buffer_insert M64 demo_heap demo_buf (demo_buf.first + 1) []).1.constructed 2 = false
    ∧ (buffer_insert M64 demo_heap demo_buf (demo_buf.first + 1) []).1.constructed 3 = false := by
  refine ⟨by decide, ?_, by decide, by decide, by decide, by decide, by decide⟩
  intro a
  simp only [demo_heap, demo_buf, decide_eq_true_eq, decide_eq_false_iff_not]
  omega

theorem buffer_reserve_trace (M : Machine) (h : Heap α) (b : buffer) (n : Nat)
    (hr : reservable M h b n) (hn : b.capacity < b.first + n) :
    (buffer_reserve M h b n).1.trace
      = h.trace ++ [Event.allocate (M.sizeofT * n) h.brk]
          ++ (List.range (b.last - b.first)).map (fun k => Event.construct (h.brk + k))
          ++ (List.range (b.last - b.first)).map (fun k => Event.destruct (b.first + k))
          ++ [Event.deallocate b.first
                (size_t_cast M ((b.first : Int) * M.sizeofT - (b.last : Int) * M.sizeofT))] := by
  rw [buffer_reserve_grow M h b n hr hn]
  simp only [buffer_destroy_trace, copy_loop_trace, static_allocate]

/-- C13, amended: for a buffer that satisfies the invariants and every `n`: if
`n ≤ capacity`, `buffer_reserve(b, n)` returns the heap and the buffer unchanged
(no event at all); if `n > capacity` and the request can be addressed
(`begin + n` and the end of the new block lie below `2 ^ wordBits` in bytes) it
makes exactly one allocate call, of `sizeof(T) * n` bytes, and the capacity
afterwards is exactly `n`; for every request that can be addressed the capacity
afterwards is `max(capacity, n)`. -/
theorem buffer_reserve_exact (M : Machine) (h : Heap α) (b : buffer) (n : Nat)
    (hb : ordered b) :
    (n ≤ b.cap → buffer_reserve M h b n = (h, b))
    ∧ (b.cap < n → reservable M h b n →
        (buffer_reserve M h b n).1.trace
          = h.trace ++ [Event.allocate (M.sizeofT * n) h.brk]
              ++ (List.range b.size).map (fun k => Event.construct (h.brk + k))
              ++ (List.range b.size).map (fun k => Event.destruct (b.first + k))
              ++ [Event.deallocate b.first
                    (size_t_cast M ((b.first : Int) * M.sizeofT - (b.last : Int) * M.sizeofT))]
        ∧ allocated (buffer_reserve M h b n).1.trace = allocated h.trace ++ [h.brk]
        ∧ (buffer_reserve M h b n).2.first = h.brk
        ∧ (buffer_reserve M h b n).2.cap = n)
    ∧ (reservable M h b n → (buffer_reserve M h b n).2.cap = max b.cap n) := by
  obtain ⟨h1, h2⟩ := hb
  unfold buffer.cap buffer.size
  refine ⟨?_, ?_, ?_⟩
  · intro hn
    exact buffer_reserve_noop M h b n (by omega)
  · intro hn hr
    have ht := buffer_reserve_trace M h b n hr (by omega)
    refine ⟨ht, ?_, ?_, ?_⟩
    · rw [ht]
      simp [allocated, List.filterMap_append]
    · rw [buffer_reserve_grow M h b n hr (by omega)]
    · rw [buffer_reserve_grow M h b n hr (by omega)]
      simp
  · intro hr
    by_cases hc : b.first + n ≤ b.capacity
    · rw [buffer_reserve_noop M h b n hc]
      simp only
      omega
    · rw [buffer_reserve_grow M h b n hr (by omega)]
      simp only
      omega

/-- Instance of C13: reserving 6 slots for the full buffer `[1, 2, 3]` of capacity 3
on a 64-bit target with 4-byte elements allocates 24 bytes. -/
theorem buffer_reserve_exact_witness :
    ordered demo_buf ∧ demo_buf.cap < 6 ∧ reservable M64 demo_heap demo_buf 6
    ∧ allocator_calls (buffer_reserve M64 demo_heap demo_buf 6).1.trace
        = [Event.allocate 24 4, Event.deallocate 1 18446744073709551604]
    ∧ (buffer_reserve M64 demo_heap demo_buf 6).2.cap = 6
    ∧ buffer_reserve M64 demo_heap demo_buf 2 = (demo_heap, demo_buf) :=
  ⟨by decide, by decide, by decide, by decide,
    ((buffer_reserve_exact M64 demo_heap demo_buf 6 (by decide)).2.1 (by decide) (by decide)).2.2.2,
    (buffer_reserve_exact M64 demo_heap demo_buf 2 (by decide)).1 (by decide)⟩

/-- C13 fails as stated: on a 64-bit target with 4-byte elements,
`buffer_reserve(b, 2^62 + 1)` on a freshly initialised buffer computes
`sizeof(T) * capacity` as `2^64 + 4`, which wraps to 4: it allocates 4 bytes, not
`sizeof(T) * n`, and `newfirst + capacity` wraps to `newfirst + 1`, so the capacity
afterwards is 1, not `n`. -/
theorem buffer_reserve_exact_wraps :
    ordered buffer_init ∧ buffer_init.cap < 4611686018427387905
    ∧ (buffer_reserve M64 (Heap.empty (0 : Nat)) buffer_init 4611686018427387905).1.trace
        = [Event.allocate 4 1, Event.deallocate 0 0]
    ∧ (buffer_reserve M64 (Heap.empty (0 : Nat)) buffer_init 4611686018427387905).2.cap = 1
    ∧ (buffer_reserve M64 (Heap.empty (0 : Nat)) buffer_init 4611686018427387905).2.cap
        ≠ max buffer_init.cap 4611686018427387905 := by
  decide

/-- C14: for a buffer that satisfies the invariants and every value `x`,
`buffer_resize(b, size(b), x)` returns the heap (values, constructed bits, trace)
and the buffer unchanged: no construction, destruction or allocator call. -/
theorem buffer_resize_same_size (M : Machine) (h : Heap α) (b : buffer) (x : α)
    (hb : ordered b) :
    buffer_resize M h b b.size x = (h, b) := by
  obtain ⟨h1, h2⟩ := hb
  have e3 : b.first + b.size = b.last := by unfold buffer.size; omega
  have hr : buffer_reserve M h b b.size = (h, b) := buffer_reserve_noop M h b b.size (by omega)
  have he : resize_end M b b.size = b.last := by
    rw [resize_end_of_le M b b.size (by omega), e3]
  simp only [buffer_resize, hr, he, buffer_destroy_range, Nat.sub_self, fill_loop, destroy_loop]

/-- Instance of C14: resizing `[1, 2, 3]` to size 3. -/
theorem buffer_resize_same_size_witness :
    ordered demo_buf ∧ buffer_resize M64 demo_heap demo_buf demo_buf.size 9 = (demo_heap, demo_buf) :=
  ⟨by decide, buffer_resize_same_size M64 demo_heap demo_buf 9 (by decide)⟩

/-- C15: the scenario of the spec on an `int` buffer. From `buffer_init`,
`buffer_resize(b, 3, 7)` gives `[7, 7, 7]`, `buffer_insert(b, begin + 1, {1, 2})`
gives `[7, 1, 2, 7, 7]`, `buffer_erase(b, begin + 3, begin + 5)` gives `[7, 1, 2]`,
and `buffer_destroy(b)` then destructs exactly the three remaining slots before its
deallocate call; over the whole run there are as many destructions as
constructions, no slot is left constructed, and every pointer returned by allocate
is passed to deallocate exactly once. -/
theorem scenario_correct :
    valid M64 (World.init (Heap.empty 0)) scenario_calls
    ∧ contents (scenario 1).heap ((scenario 1).bufs 0) = [7, 7, 7]
    ∧ contents (scenario 2).heap ((scenario 2).bufs 0) = [7, 1, 2, 7, 7]
    ∧ contents (scenario 3).heap ((scenario 3).bufs 0) = [7, 1, 2]
    ∧ scenario_end.trace.drop (scenario 3).heap.trace.length
        = [Event.destruct 4, Event.destruct 5, Event.destruct 6,
           Event.deallocate 4 18446744073709551604]
    ∧ destructions scenario_end.trace = constructions scenario_end.trace
    ∧ constructions scenario_end.trace = 10
    ∧ allocated scenario_end.trace = [1, 4]
    ∧ (∀ p ∈ allocated scenario_end.trace, (deallocated scenario_end.trace).count p = 1)
    ∧ (∀ a, a < scenario_end.brk → scenario_end.constructed a = false) := by
  refine ⟨by simp only [valid, scenario_calls, Call.pre]; decide, by decide, by decide, by decide,
    by decide, by decide, by decide, by decide, by decide, by decide⟩

theorem buffer_erase_trace (h : Heap α) (b : buffer) (first last : Nat) :
    (buffer_erase h b first last).1.trace
      = h.trace ++ (List.range (last - first)).map (fun k => Event.destruct (first + k))
          ++ (List.range (b.last - last)).map (fun k => Event.construct (first + k)) := by
  simp only [buffer_erase, copy_loop_trace, buffer_destroy_range, destroy_loop_trace]

/-- C16 at its failing input: `buffer_erase(b, begin, begin + 1)` on `[1, 2, 3]`
makes one destructor call (slot 1) and two placement news (slots 1 and 2); the
claim counts `(last - first) + (end - last) = 3` destructor calls. The placement new
on slot 2 hits a slot that is still constructed, and the slot 3 at the new `end`
is left constructed. -/
theorem erase_never_destructs_sources :
    ordered demo_buf ∧ slots_ok demo_heap demo_buf
    ∧ (buffer_erase demo_heap demo_buf demo_buf.first (demo_buf.first + 1)).1.trace
        = [Event.destruct 1, Event.construct 1, Event.construct 2]
    ∧ destructions (buffer_erase demo_heap demo_buf demo_buf.first (demo_buf.first + 1)).1.trace = 1
    ∧ (demo_buf.first + 1 - demo_buf.first) + (demo_buf.last - (demo_buf.first + 1)) = 3
    ∧ fresh_constructs demo_heap.constructed
        (buffer_erase demo_heap demo_buf demo_buf.first (demo_buf.first + 1)).1.trace = false
    ∧ (buffer_erase demo_heap demo_buf demo_buf.first (demo_buf.first + 1)).2.1.last = 3
    ∧ (buffer_erase demo_heap demo_buf demo_buf.first (demo_buf.first + 1)).1.constructed 3 = true := by
  refine ⟨by decide, ?_, by decide, by decide, by decide, by decide, by decide, by decide⟩
  intro a
  simp only [demo_heap, demo_buf, decide_eq_true_eq, decide_eq_false_iff_not]
  omega

/-- C18, amended: for a buffer whose `begin` and `end` are null (the state
`buffer_init` produces), `buffer_destroy(b)` destructs nothing, never calls
allocate, and makes exactly one allocator call, `static_deallocate(null, 0)`;
`buffer_init` touches no heap and yields size 0 and capacity 0. -/
theorem buffer_destroy_null (M : Machine) (h : Heap α) (b : buffer)
    (hf : b.first = 0) (hl : b.last = 0) :
    (buffer_destroy M h b).trace = h.trace ++ [Event.deallocate 0 0]
    ∧ destructions (buffer_destroy M h b).trace = destructions h.trace
    ∧ allocated (buffer_destroy M h b).trace = allocated h.trace
    ∧ allocator_calls (buffer_destroy M h b).trace = allocator_calls h.trace ++ [Event.deallocate 0 0]
    ∧ buffer_init.first = 0 ∧ buffer_init.last = 0
    ∧ buffer_init.size = 0 ∧ buffer_init.cap = 0 := by
  have ht : (buffer_destroy M h b).trace = h.trace ++ [Event.deallocate 0 0] := by
    rw [buffer_destroy_trace, hf, hl]
    simp [size_t_cast]
  refine ⟨ht, ?_, ?_, ?_, rfl, rfl, rfl, rfl⟩
  · rw [ht]; simp [destructions, List.filter_append]
  · rw [ht]; simp [allocated, List.filterMap_append]
  · rw [ht]; simp [allocator_calls, List.filter_append]

/-- Instance of C18: destroying a freshly initialised buffer on an empty heap. -/
theorem buffer_destroy_null_witness :
    buffer_init.first = 0 ∧ buffer_init.last = 0
    ∧ (buffer_destroy M64 (Heap.empty (0 : Nat)) buffer_init).trace
        = (Heap.empty (0 : Nat)).trace ++ [Event.deallocate 0 0] :=
  ⟨rfl, rfl, (buffer_destroy_null M64 (Heap.empty (0 : Nat)) buffer_init rfl rfl).1⟩

/-- C18 fails as stated: `buffer_destroy` on a freshly initialised buffer does call
the allocator, once: `static_deallocate(null, 0)`. -/
theorem buffer_destroy_null_deallocates :
    allocator_calls (buffer_destroy M64 (Heap.empty (0 : Nat)) buffer_init).trace
        = [Event.deallocate 0 0]
    ∧ allocator_calls (buffer_destroy M64 (Heap.empty (0 : Nat)) buffer_init).trace
        ≠ allocator_calls (Heap.empty (0 : Nat)).trace := by
  decide

theorem destroy_loop_constructed (n p : Nat) (h : Heap α) (a : Nat) :
    (destroy_loop n p h).constructed a
      = if p ≤ a ∧ a < p + n then false else h.constructed a := by
  induction n generalizing p h with
  | zero => rw [if_neg (by omega)]; rfl
  | succ n ih =>
    simp only [destroy_loop]
    rw [ih (p + 1) _]
    simp only [Heap.destructor]
    split_ifs <;> first | omega | rfl

theorem copy_loop_constructed (n it dest : Nat) (h : Heap α) (a : Nat) :
    (copy_loop n it dest h).constructed a
      = if dest ≤ a ∧ a < dest + n then true else h.constructed a := by
  induction n generalizing it dest h with
  | zero => rw [if_neg (by omega)]; rfl
  | succ n ih =>
    simp only [copy_loop]
    rw [ih (it + 1) (dest + 1) _]
    simp only [Heap.placement_new]
    split_ifs <;> first | omega | rfl

theorem insert_shift_constructed (n it k : Nat) (h : Heap α) (hk : 1 ≤ k) (hn : n ≤ it)
    (a : Nat) :
    (insert_shift n it (it + k) h).constructed a
      = if it - n + k ≤ a ∧ a < it + k then true
        else if it - n ≤ a ∧ a < it then false else h.constructed a := by
  induction n generalizing it h with
  | zero => rw [if_neg (by omega), if_neg (by omega)]; rfl
  | succ n ih =>
    simp only [insert_shift]
    rw [show it + k - 1 = (it - 1) + k by omega, ih (it - 1) _ (by omega)]
    simp only [buffer_destroy_range, show it - (it - 1) = 1 by omega, destroy_loop,
      Heap.destructor, Heap.placement_new]
    split_ifs <;> first | omega | rfl

theorem fresh_constructs_append (c : Nat → Bool) (l1 l2 : List Event) :
    fresh_constructs c (l1 ++ l2)
      = (fresh_constructs c l1 && fresh_constructs (replay c l1) l2) := by
  induction l1 generalizing c with
  | nil => simp [fresh_constructs, replay]
  | cons e t ih =>
    cases e <;> simp [fresh_constructs, replay, Event.apply, ih, Bool.and_assoc]

theorem shift_events_fresh (k : Nat) (hk : 1 ≤ k) (n it : Nat) (c : Nat → Bool) (hn : n ≤ it)
    (hgap : ∀ a, it ≤ a → a < it + k → c a = false) :
    fresh_constructs c (shift_events n it k) = true
    ∧ ∀ a, it - n ≤ a → a < it - n + k → replay c (shift_events n it k) a = false := by
  induction n generalizing it c with
  | zero =>
    refine ⟨by simp [shift_events, fresh_constructs], ?_⟩
    intro a h1 h2
    simpa [shift_events, replay] using hgap a (by omega) (by omega)
  | succ n ih =>
    rw [shift_events_succ n it k (by omega)]
    have hc : c (it + k - 1) = false := hgap _ (by omega) (by omega)
    obtain ⟨i1, i2⟩ := ih (it - 1)
      ((Event.destruct (it - 1)).apply ((Event.construct (it + k - 1)).apply c)) (by omega)
      (by
        intro a h1 h2
        simp only [Event.apply]
        by_cases e : a = it - 1
        · rw [if_pos e]
        · rw [if_neg e, if_neg (by omega)]
          exact hgap a (by omega) (by omega))
    refine ⟨by simp only [fresh_constructs, hc, Bool.not_false, Bool.true_and]; exact i1, ?_⟩
    intro a h1 h2
    simp only [replay]
    exact i2 a (by omega) (by omega)

theorem construct_range_fresh (k w : Nat) (c : Nat → Bool)
    (hgap : ∀ a, w ≤ a → a < w + k → c a = false) :
    fresh_constructs c ((List.range k).map (fun t => Event.construct (w + t))) = true := by
  induction k generalizing w c with
  | zero => simp [fresh_constructs]
  | succ k ih =>
    have e : ((fun t => Event.construct (w + t)) ∘ Nat.succ)
        = fun t => Event.construct (w + 1 + t) := by
      funext t
      simp only [Function.comp, Nat.succ_eq_add_one]
      congr 1
      omega
    rw [List.range_succ_eq_map, List.map_cons, List.map_map, e]
    simp only [fresh_constructs, Nat.add_zero]
    rw [hgap w (by omega) (by omega)]
    simp only [Bool.not_false, Bool.true_and]
    apply ih
    intro a h1 h2
    simp only [Event.apply]
    rw [if_neg (by omega)]
    exact hgap a (by omega) (by omega)

/-- The state `buffer_insert` starts its shift from: the live slots are
constructed and the `|src|` slots from `end` on are not. -/
theorem insert_grown_state (M : Machine) (h : Heap α) (b : buffer) (src : List α)
    (hwf : well_formed h b)
    (hfit : b.capacity < b.first + (b.size + src.length) →
      3 * (b.size + src.length) < 2 ^ M.wordBits
      ∧ reservable M h b (grow_target M (b.size + src.length))) :
    (insert_grown M h b src).2.first ≤ (insert_grown M h b src).2.last
    ∧ (insert_grown M h b src).2.last - (insert_grown M h b src).2.first = b.last - b.first
    ∧ (∀ a, (insert_grown M h b src).2.first ≤ a → a < (insert_grown M h b src).2.last →
        (insert_grown M h b src).1.constructed a = true)
    ∧ (∀ a, (insert_grown M h b src).2.last ≤ a →
        a < (insert_grown M h b src).2.last + src.length →
        (insert_grown M h b src).1.constructed a = false) := by
  obtain ⟨⟨⟨o1, o2⟩, o3⟩, hs, hfresh⟩ := hwf
  unfold buffer.size at hfit
  unfold insert_grown
  split_ifs with hc
  · have hg := grow_target_ge M _ (hfit hc).1
    rw [buffer_reserve_grow M h b _ (hfit hc).2 (by omega)]
    simp only [buffer_destroy, static_deallocate, static_allocate, buffer_destroy_range,
      destroy_loop_constructed, copy_loop_constructed]
    refine ⟨by omega, by omega, ?_, ?_⟩
    · intro a h1 h2
      rw [if_neg (by omega), if_pos (by omega)]
    · intro a h1 h2
      rw [if_neg (by omega), if_neg (by omega)]
      exact hfresh a (by omega)
  · refine ⟨o1, rfl, fun a h1 h2 => (hs a).1 ⟨h1, h2⟩, fun a h1 h2 => (hs a).2 ⟨h1, ?_⟩⟩
    simp only at h2 ⊢
    omega

theorem demo_well_formed : well_formed demo_heap demo_buf := by
  refine ⟨by decide, ?_, ?_⟩
  · intro a
    simp only [demo_heap, demo_buf, decide_eq_true_eq, decide_eq_false_iff_not]
    omega
  · intro a ha
    simp only [demo_heap, decide_eq_false_iff_not] at ha ⊢
    omega

theorem wrap_well_formed : well_formed wrap_heap wrap_buf := by
  refine ⟨by decide, ?_, ?_⟩
  · intro a
    simp only [wrap_heap, wrap_buf, decide_eq_true_eq, decide_eq_false_iff_not]
    omega
  · intro a ha
    simp only [wrap_heap, decide_eq_false_iff_not] at ha ⊢
    omega

/-- C17, amended: for a buffer that satisfies the invariants, a position
`where = begin + i` in `[begin, end]` and a source range of `k ≥ 1` elements, where
an insert that grows has `3 * newsize < 2 ^ wordBits` and a growth request that can
be addressed (`begin + request` and the end of the new block lie below
`2 ^ wordBits` in bytes): the shift of `buffer_insert`
appends exactly the events `construct (end + k - 1 - t), destruct (end - 1 - t)` for
`t = 0, 1, ...` (highest index first, each source slot destructed right after it is
copied), the final copy appends `construct (where + t)` in forward order, every one
of these placement news targets a slot that is unconstructed at that moment, and at
the end of the shift the unconstructed slots of the new live range are exactly
those of `[where, where + k)`. -/
theorem insert_shift_protocol (M : Machine) (h : Heap α) (b : buffer) (i : Nat) (ys : List α)
    (hwf : well_formed h b) (hi : i ≤ b.size) (hk : 1 ≤ ys.length)
    (hfit : b.capacity < b.first + (b.size + ys.length) →
      3 * (b.size + ys.length) < 2 ^ M.wordBits
      ∧ reservable M h b (grow_target M (b.size + ys.length))) :
    (buffer_insert M h b (b.first + i) ys).1
        = insert_copy ys ((insert_grown M h b ys).2.first + i)
            (insert_shifted M h b (b.first + i) ys)
    ∧ (insert_shifted M h b (b.first + i) ys).trace
        = (insert_grown M h b ys).1.trace
            ++ shift_events (b.size - i) (insert_grown M h b ys).2.last ys.length
    ∧ (buffer_insert M h b (b.first + i) ys).1.trace
        = (insert_shifted M h b (b.first + i) ys).trace
            ++ (List.range ys.length).map
                (fun t => Event.construct ((insert_grown M h b ys).2.first + i + t))
    ∧ fresh_constructs (insert_grown M h b ys).1.constructed
          ((buffer_insert M h b (b.first + i) ys).1.trace.drop
            (insert_grown M h b ys).1.trace.length) = true
    ∧ ∀ a, (insert_grown M h b ys).2.first ≤ a →
        a < (insert_grown M h b ys).2.first + (b.size + ys.length) →
        ((insert_shifted M h b (b.first + i) ys).constructed a = false
          ↔ ((insert_grown M h b ys).2.first + i ≤ a
              ∧ a < (insert_grown M h b ys).2.first + i + ys.length)) := by
  obtain ⟨g1, g2, g3, g4⟩ := insert_grown_state M h b ys hwf hfit
  unfold buffer.size at hi ⊢
  have hw : (insert_grown M h b ys).2.first + (b.first + i - b.first)
      = (insert_grown M h b ys).2.first + i := by omega
  have hm : (insert_grown M h b ys).2.last - ((insert_grown M h b ys).2.first + i)
      = b.last - b.first - i := by omega
  have hs : insert_shifted M h b (b.first + i) ys
      = insert_shift (b.last - b.first - i) (insert_grown M h b ys).2.last
          ((insert_grown M h b ys).2.last + ys.length) (insert_grown M h b ys).1 := by
    unfold insert_shifted
    rw [hw, hm]
  have h1 : (buffer_insert M h b (b.first + i) ys).1
      = insert_copy ys ((insert_grown M h b ys).2.first + i)
          (insert_shifted M h b (b.first + i) ys) := by
    rw [← hw]
    rfl
  have h2 : (insert_shifted M h b (b.first + i) ys).trace
      = (insert_grown M h b ys).1.trace
          ++ shift_events (b.last - b.first - i) (insert_grown M h b ys).2.last ys.length := by
    rw [hs, insert_shift_trace _ _ _ _ (by omega)]
  have h3 : (buffer_insert M h b (b.first + i) ys).1.trace
      = (insert_shifted M h b (b.first + i) ys).trace
          ++ (List.range ys.length).map
              (fun t => Event.construct ((insert_grown M h b ys).2.first + i + t)) := by
    rw [h1, insert_copy_trace]
  refine ⟨h1, h2, h3, ?_, ?_⟩
  · rw [h3, h2, List.append_assoc, List.drop_left, fresh_constructs_append]
    obtain ⟨f1, f2⟩ := shift_events_fresh ys.length hk (b.last - b.first - i)
      (insert_grown M h b ys).2.last (insert_grown M h b ys).1.constructed (by omega) g4
    rw [f1, Bool.true_and]
    apply construct_range_fresh
    intro a a1 a2
    exact f2 a (by omega) (by omega)
  · intro a a1 a2
    rw [hs, insert_shift_constructed _ _ _ _ hk (by omega)]
    by_cases c1 : (insert_grown M h b ys).2.last - (b.last - b.first - i) + ys.length ≤ a
        ∧ a < (insert_grown M h b ys).2.last + ys.length
    · rw [if_pos c1]
      simp only [Bool.true_eq_false, false_iff]
      omega
    · rw [if_neg c1]
      by_cases c2 : (insert_grown M h b ys).2.last - (b.last - b.first - i) ≤ a
          ∧ a < (insert_grown M h b ys).2.last
      · rw [if_pos c2]
        simp only [true_iff]
        omega
      · rw [if_neg c2]
        by_cases c3 : a < (insert_grown M h b ys).2.last
        · rw [g3 a a1 c3]
          simp only [Bool.true_eq_false, false_iff]
          omega
        · rw [g4 a (by omega) (by omega)]
          simp only [true_iff]
          omega

/-- Instance of C17: `[9, 9]` inserted before index 1 of `[1, 2, 3]` on a 64-bit
target. -/
theorem insert_shift_protocol_witness :
    well_formed demo_heap demo_buf ∧ 1 ≤ demo_buf.size ∧ 1 ≤ [9, 9].length
    ∧ (insert_shifted M64 demo_heap demo_buf (demo_buf.first + 1) [9, 9]).trace
        = (insert_grown M64 demo_heap demo_buf [9, 9]).1.trace
            ++ shift_events (demo_buf.size - 1) (insert_grown M64 demo_heap demo_buf [9, 9]).2.last
                [9, 9].length
    ∧ shift_events (demo_buf.size - 1) (insert_grown M64 demo_heap demo_buf [9, 9]).2.last
          [9, 9].length
        = [Event.construct 8, Event.destruct 6, Event.construct 7, Event.destruct 5]
    ∧ fresh_constructs (insert_grown M64 demo_heap demo_buf [9, 9]).1.constructed
          ((buffer_insert M64 demo_heap demo_buf (demo_buf.first + 1) [9, 9]).1.trace.drop
            (insert_grown M64 demo_heap demo_buf [9, 9]).1.trace.length) = true :=
  ⟨demo_well_formed, by decide, by decide,
    (insert_shift_protocol M64 demo_heap demo_buf 1 [9, 9] demo_well_formed (by decide) (by decide)
      (fun _ => ⟨by decide, by decide⟩)).2.1,
    by decide,
    (insert_shift_protocol M64 demo_heap demo_buf 1 [9, 9] demo_well_formed (by decide) (by decide)
      (fun _ => ⟨by decide, by decide⟩)).2.2.2.1⟩

/-- C17 fails as stated: on a 32-bit target, appending one element to a full
buffer of 1431655765 one-byte elements (which satisfies the invariants) requests
`(3 * 1431655766 mod 2^32) / 2 = 1` slot, so nothing is reserved, and the final copy
does its placement new on the slot at `capacityEnd`, which is constructed. -/
theorem insert_shift_protocol_wraps :
    well_formed wrap_heap wrap_buf ∧ 1431655765 ≤ wrap_buf.size ∧ 1 ≤ [0].length
    ∧ (buffer_insert M32 wrap_heap wrap_buf (wrap_buf.first + 1431655765) [0]).1.trace.drop
          (insert_grown M32 wrap_heap wrap_buf [0]).1.trace.length
        = [Event.construct 1431655766]
    ∧ (insert_grown M32 wrap_heap wrap_buf [0]).1.constructed 1431655766 = true
    ∧ fresh_constructs (insert_grown M32 wrap_heap wrap_buf [0]).1.constructed
          ((buffer_insert M32 wrap_heap wrap_buf (wrap_buf.first + 1431655765) [0]).1.trace.drop
            (insert_grown M32 wrap_heap wrap_buf [0]).1.trace.length) = false :=
  ⟨wrap_well_formed, by decide, by decide, by decide, by decide, by decide⟩

end tinystl
